import Mathlib

/-!
Verification development for the guillotine-league season statistics pipeline
(src/api/data_processor.py and the standalone scripts under src/scripts/).

The Python code is shallowly embedded: weekly score tables become functions
of type nat to nat to Option rat (week, roster id, optional points), Python
dicts keyed by roster id become association lists or functions, and the
stateful loops of process_season_data become structural recursions.  Scores
are modelled as rationals; Python round(x, k) is modelled as rounding
x * 10^k to the nearest integer (the model does not reproduce the
round-half-to-even tie rule of Python floats, which none of the statements
below depend on).
-/

namespace Guillotine

/-! ### Shared numeric helpers -/

/-- Model of Python round(x, 1). -/
def round1 (x : ℚ) : ℚ := (round (x * 10) : ℤ) / 10

/-- Model of Python round(x, 2). -/
def round2 (x : ℚ) : ℚ := (round (x * 100) : ℤ) / 100

/-- Model of statistics.mean on a list of rationals. -/
def ratMean (l : List ℚ) : ℚ := l.sum / l.length

/-! ### Elimination simulator (process_season_data, step 3)

The loop body builds week_scores, the scores of the still remaining teams
that have a recorded score this week, takes the minimum score as the chop
score, and removes the team minimising the pair (score, roster_id). -/

/-- Model of the week_scores dict comprehension: pairs (roster_id, score) for
remaining teams with a recorded score this week, in remaining-list order. -/
def weekScoresOf (scores : ℕ → ℕ → Option ℚ) (week : ℕ) (remaining : List ℕ) :
    List (ℕ × ℚ) :=
  remaining.filterMap fun r => (scores week r).map fun s => (r, s)

/-- Model of min over week_scores values on a nonempty week_scores. -/
def minScoreOf (ws : List (ℕ × ℚ)) : ℚ :=
  match ws with
  | [] => 0
  | x :: xs => (xs.map Prod.snd).foldl min x.2

/-- The strict ordering of the keys used by the Python min call selecting the
chopped team: lexicographic comparison of the pair (score, roster id). -/
def chopKeyLt (a b : ℕ × ℚ) : Prop := a.2 < b.2 ∨ (a.2 = b.2 ∧ a.1 < b.1)

instance : DecidableRel chopKeyLt := fun a b => by unfold chopKeyLt; infer_instance

/-- Reflexive companion of chopKeyLt, used only in proofs. -/
def chopKeyLe (a b : ℕ × ℚ) : Prop := a.2 < b.2 ∨ (a.2 = b.2 ∧ a.1 ≤ b.1)

/-- Model of Python min with a key function: scan the list, replacing the
current best only on a strictly smaller key. -/
def minByChopKey : (ℕ × ℚ) → List (ℕ × ℚ) → (ℕ × ℚ)
  | best, [] => best
  | best, x :: xs => if chopKeyLt x best then minByChopKey x xs else minByChopKey best xs

/-- Model of the chopped-team selection on a nonempty week_scores list. -/
def choppedTeam (ws : List (ℕ × ℚ)) : ℕ × ℚ :=
  match ws with
  | [] => (0, 0)
  | x :: xs => minByChopKey x xs

/-- Model of the elimination loop of process_season_data: given the weeks
still to process and the list of remaining teams, returns the eliminations
association list (roster_id, chop week) and the chop_scores association list
(week, chop score).  The loop stops as soon as a week has no recorded score
for any remaining team. -/
def runElim (scores : ℕ → ℕ → Option ℚ) :
    List ℕ → List ℕ → List (ℕ × ℕ) × List (ℕ × ℚ)
  | [], _ => ([], [])
  | w :: ws, remaining =>
    let wsc := weekScoresOf scores w remaining
    if wsc = [] then ([], [])
    else
      let c := choppedTeam wsc
      let rest := runElim scores ws (remaining.erase c.1)
      ((c.1, w) :: rest.1, (w, minScoreOf wsc) :: rest.2)

/-- Boolean predicate: every team still remaining when a week is processed
has a recorded score in that week (the hypothesis of claim C1), checked along
the elimination run itself. -/
def scoredWhileAliveB (scores : ℕ → ℕ → Option ℚ) :
    List ℕ → List ℕ → Bool
  | [], _ => true
  | w :: ws, remaining =>
    remaining.all (fun r => (scores w r).isSome) &&
      (let wsc := weekScoresOf scores w remaining
       if wsc = [] then true
       else scoredWhileAliveB scores ws (remaining.erase (choppedTeam wsc).1))

/-! Order lemmas for the chop key. -/

lemma chopKeyLe_refl (a : ℕ × ℚ) : chopKeyLe a a := Or.inr ⟨rfl, le_refl _⟩

lemma chopKeyLe_trans {a b c : ℕ × ℚ} (h₁ : chopKeyLe a b) (h₂ : chopKeyLe b c) :
    chopKeyLe a c := by
  rcases h₁ with h₁ | ⟨e₁, r₁⟩
  · rcases h₂ with h₂ | ⟨e₂, r₂⟩
    · exact Or.inl (h₁.trans h₂)
    · exact Or.inl (e₂ ▸ h₁)
  · rcases h₂ with h₂ | ⟨e₂, r₂⟩
    · exact Or.inl (e₁ ▸ h₂)
    · exact Or.inr ⟨e₁.trans e₂, r₁.trans r₂⟩

lemma chopKeyLe_of_not_lt {a b : ℕ × ℚ} (h : ¬ chopKeyLt a b) : chopKeyLe b a := by
  unfold chopKeyLt at h
  unfold chopKeyLe
  push_neg at h
  rcases h with ⟨h1, h2⟩
  rcases lt_or_eq_of_le h1 with hlt | heq
  · exact Or.inl hlt
  · exact Or.inr ⟨heq, h2 heq.symm⟩

lemma chopKeyLe_of_lt {a b : ℕ × ℚ} (h : chopKeyLt a b) : chopKeyLe a b := by
  rcases h with h | ⟨e, r⟩
  · exact Or.inl h
  · exact Or.inr ⟨e, le_of_lt r⟩

lemma minByChopKey_mem (x : ℕ × ℚ) (xs : List (ℕ × ℚ)) :
    minByChopKey x xs ∈ x :: xs := by
  induction xs generalizing x with
  | nil => simp [minByChopKey]
  | cons y ys ih =>
    simp only [minByChopKey]
    by_cases h : chopKeyLt y x
    · simp only [if_pos h]
      exact List.mem_cons_of_mem _ (ih y)
    · simp only [if_neg h]
      rcases List.mem_cons.mp (ih x) with h' | h'
      · rw [h']
        exact List.mem_cons_self _ _
      · exact List.mem_cons_of_mem _ (List.mem_cons_of_mem _ h')

lemma minByChopKey_le (x : ℕ × ℚ) (xs : List (ℕ × ℚ)) :
    ∀ p ∈ x :: xs, chopKeyLe (minByChopKey x xs) p := by
  induction xs generalizing x with
  | nil =>
    intro p hp
    simp only [List.mem_singleton] at hp
    subst hp
    simpa [minByChopKey] using chopKeyLe_refl p
  | cons y ys ih =>
    intro p hp
    simp only [minByChopKey]
    by_cases h : chopKeyLt y x
    · simp only [if_pos h]
      rcases List.mem_cons.mp hp with rfl | hp'
      · exact chopKeyLe_trans (ih y _ (List.mem_cons_self _ _)) (chopKeyLe_of_lt h)
      · exact ih y _ hp'
    · simp only [if_neg h]
      rcases List.mem_cons.mp hp with rfl | hp'
      · exact ih p _ (List.mem_cons_self _ _)
      · rcases List.mem_cons.mp hp' with rfl | hp''
        · exact chopKeyLe_trans (ih x _ (List.mem_cons_self _ _)) (chopKeyLe_of_not_lt h)
        · exact ih x _ (List.mem_cons_of_mem _ hp'')

/-! Lemmas about foldl min and the chop score. -/

lemma foldl_min_le_init (l : List ℚ) (init : ℚ) : l.foldl min init ≤ init := by
  induction l generalizing init with
  | nil => simp
  | cons a l ih =>
    simpa using (ih (min init a)).trans (min_le_left _ _)

lemma foldl_min_le_mem (l : List ℚ) (init : ℚ) : ∀ y ∈ l, l.foldl min init ≤ y := by
  induction l generalizing init with
  | nil => simp
  | cons a l ih =>
    intro y hy
    rcases List.mem_cons.mp hy with rfl | hy'
    · simpa using (foldl_min_le_init l (min init y)).trans (min_le_right _ _)
    · simpa using ih (min init a) y hy'

lemma foldl_min_eq_init_or_mem (l : List ℚ) (init : ℚ) :
    l.foldl min init = init ∨ l.foldl min init ∈ l := by
  induction l generalizing init with
  | nil => simp
  | cons a l ih =>
    rcases ih (min init a) with h | h
    · rcases min_choice init a with hc | hc
      · left
        simpa [hc] using h
      · right
        rw [List.foldl_cons, h, hc]
        exact List.mem_cons_self _ _
    · right
      exact List.mem_cons_of_mem _ (by simpa using h)

lemma minScoreOf_le (ws : List (ℕ × ℚ)) : ∀ p ∈ ws, minScoreOf ws ≤ p.2 := by
  intro p hp
  match ws, hp with
  | x :: xs, hp =>
    rcases List.mem_cons.mp hp with rfl | hp'
    · exact foldl_min_le_init _ _
    · exact foldl_min_le_mem _ _ _ (List.mem_map_of_mem Prod.snd hp')

lemma minScoreOf_mem (ws : List (ℕ × ℚ)) (h : ws ≠ []) :
    ∃ p ∈ ws, p.2 = minScoreOf ws := by
  match ws with
  | x :: xs =>
    rcases foldl_min_eq_init_or_mem (xs.map Prod.snd) x.2 with h' | h'
    · exact ⟨x, List.mem_cons_self _ _, by simp [minScoreOf, h']⟩
    · rcases List.mem_map.mp h' with ⟨p, hp, he⟩
      exact ⟨p, List.mem_cons_of_mem _ hp, by simp [minScoreOf, he]⟩

lemma choppedTeam_mem (ws : List (ℕ × ℚ)) (h : ws ≠ []) : choppedTeam ws ∈ ws := by
  match ws with
  | x :: xs => exact minByChopKey_mem x xs

lemma choppedTeam_le (ws : List (ℕ × ℚ)) (h : ws ≠ []) :
    ∀ p ∈ ws, chopKeyLe (choppedTeam ws) p := by
  match ws with
  | x :: xs => exact minByChopKey_le x xs

lemma choppedTeam_snd (ws : List (ℕ × ℚ)) (h : ws ≠ []) :
    (choppedTeam ws).2 = minScoreOf ws := by
  have h1 : minScoreOf ws ≤ (choppedTeam ws).2 := minScoreOf_le ws _ (choppedTeam_mem ws h)
  have h2 : (choppedTeam ws).2 ≤ minScoreOf ws := by
    rcases minScoreOf_mem ws h with ⟨p, hp, he⟩
    rcases choppedTeam_le ws h p hp with hlt | ⟨heq, _⟩
    · exact he ▸ le_of_lt hlt
    · exact he ▸ le_of_eq heq
  exact le_antisymm h2 h1

/-! Lemmas about the elimination run. -/

lemma weekScoresOf_fst_mem {scores : ℕ → ℕ → Option ℚ} {w : ℕ} {remaining : List ℕ}
    {p : ℕ × ℚ} (hp : p ∈ weekScoresOf scores w remaining) : p.1 ∈ remaining := by
  rcases List.mem_filterMap.mp hp with ⟨r, hr, he⟩
  rcases Option.map_eq_some'.mp he with ⟨s, _, hpe⟩
  rw [← hpe]
  exact hr

lemma weekScoresOf_ne_nil {scores : ℕ → ℕ → Option ℚ} {w : ℕ} {r : ℕ}
    {remaining : List ℕ} (hr : r ∈ remaining) (hs : (scores w r).isSome) :
    weekScoresOf scores w remaining ≠ [] := by
  intro hnil
  rcases Option.isSome_iff_exists.mp hs with ⟨s, hse⟩
  have := List.filterMap_eq_nil_iff.mp hnil r hr
  rw [hse] at this
  simp at this

lemma runElim_fst_mem (scores : ℕ → ℕ → Option ℚ) (ws : List ℕ) (remaining : List ℕ) :
    ∀ e ∈ (runElim scores ws remaining).1, e.1 ∈ remaining := by
  induction ws generalizing remaining with
  | nil => simp [runElim]
  | cons w ws ih =>
    intro e he
    simp only [runElim] at he
    by_cases hempty : weekScoresOf scores w remaining = []
    · rw [if_pos hempty] at he
      simp at he
    · rw [if_neg hempty] at he
      rcases List.mem_cons.mp he with rfl | he'
      · exact weekScoresOf_fst_mem (choppedTeam_mem _ hempty)
      · exact List.mem_of_mem_erase (ih _ e he')

lemma runElim_fst_nodup (scores : ℕ → ℕ → Option ℚ) (ws : List ℕ)
    (remaining : List ℕ) (hnd : remaining.Nodup) :
    ((runElim scores ws remaining).1.map Prod.fst).Nodup := by
  induction ws generalizing remaining with
  | nil => simp [runElim]
  | cons w ws ih =>
    simp only [runElim]
    by_cases hempty : weekScoresOf scores w remaining = []
    · rw [if_pos hempty]
      simp
    · rw [if_neg hempty]
      simp only [List.map_cons]
      refine List.nodup_cons.mpr ⟨?_, ih _ (hnd.erase _)⟩
      intro hmem
      rcases List.mem_map.mp hmem with ⟨e, he, hee⟩
      have h1 := runElim_fst_mem scores ws _ e he
      rw [hee] at h1
      exact (List.Nodup.not_mem_erase hnd) h1

lemma runElim_snd_sublist (scores : ℕ → ℕ → Option ℚ) (ws : List ℕ)
    (remaining : List ℕ) :
    ((runElim scores ws remaining).1.map Prod.snd).Sublist ws := by
  induction ws generalizing remaining with
  | nil => simp [runElim]
  | cons w ws ih =>
    simp only [runElim]
    by_cases hempty : weekScoresOf scores w remaining = []
    · rw [if_pos hempty]
      simp
    · rw [if_neg hempty]
      simp only [List.map_cons]
      exact List.Sublist.cons₂ w (ih _)

lemma runElim_length (scores : ℕ → ℕ → Option ℚ) (ws : List ℕ) (remaining : List ℕ)
    (hs : scoredWhileAliveB scores ws remaining = true) :
    (runElim scores ws remaining).1.length = min ws.length remaining.length := by
  induction ws generalizing remaining with
  | nil => simp [runElim]
  | cons w ws ih =>
    simp only [scoredWhileAliveB, Bool.and_eq_true, List.all_eq_true] at hs
    rcases hs with ⟨hall, hrest⟩
    simp only [runElim]
    by_cases hempty : weekScoresOf scores w remaining = []
    · rw [if_pos hempty]
      match remaining with
      | [] => simp
      | r :: rs =>
        exact absurd hempty
          (weekScoresOf_ne_nil (List.mem_cons_self _ _) (hall r (List.mem_cons_self _ _)))
    · rw [if_neg hempty] at hrest ⊢
      simp only [List.length_cons]
      have hmem : (choppedTeam (weekScoresOf scores w remaining)).1 ∈ remaining :=
        weekScoresOf_fst_mem (choppedTeam_mem _ hempty)
      have hlen : (remaining.erase (choppedTeam (weekScoresOf scores w remaining)).1).length
          = remaining.length - 1 := List.length_erase_of_mem hmem
      have hpos : 1 ≤ remaining.length := List.length_pos.mpr (by
        intro hcon
        rw [hcon] at hmem
        simp at hmem)
      rw [ih _ hrest, hlen]
      omega

/-! ### Claim C1 -/

/-- C1 (amended): for an N-team, W-week score matrix in which every team has
a recorded score in every week while it is alive, the elimination simulation
of process_season_data records exactly min(W, N) eliminations (the claimed
min(W, N-1) fails: when the season runs at least N weeks the final survivor
is chopped as well), eliminates each team at most once, and eliminates at
most one team per week. -/
theorem process_season_data_elimination_count
    (scores : ℕ → ℕ → Option ℚ) (teams : List ℕ) (W : ℕ)
    (hnd : teams.Nodup)
    (hs : scoredWhileAliveB scores (List.range' 1 W) teams = true) :
    (runElim scores (List.range' 1 W) teams).1.length = min W teams.length ∧
    ((runElim scores (List.range' 1 W) teams).1.map Prod.fst).Nodup ∧
    ((runElim scores (List.range' 1 W) teams).1.map Prod.snd).Nodup := by
  refine ⟨?_, runElim_fst_nodup scores _ teams hnd, ?_⟩
  · have h := runElim_length scores (List.range' 1 W) teams hs
    rwa [List.length_range'] at h
  · exact (runElim_snd_sublist scores _ teams).nodup (List.nodup_range' _ _)

/-- Concrete witness for C1 at a 2-team, 1-week matrix: exactly
min(1, 2) = 1 elimination. -/
theorem process_season_data_elimination_count_witness :
    ([1, 2] : List ℕ).Nodup ∧
    scoredWhileAliveB (fun w r => if w = 1 ∧ r ≤ 2 then some (10 * r : ℕ) else none)
      (List.range' 1 1) [1, 2] = true ∧
    (runElim (fun w r => if w = 1 ∧ r ≤ 2 then some (10 * r : ℕ) else none)
      (List.range' 1 1) [1, 2]).1.length = min 1 2 :=
  ⟨by decide, by decide,
    (process_season_data_elimination_count
      (fun w r => if w = 1 ∧ r ≤ 2 then some (10 * r : ℕ) else none) [1, 2] 1
      (by decide) (by decide)).1⟩

/-- Score matrix refuting C1 as stated: 2 teams and 2 weeks, each team scoring
in every week while alive. -/
def c1Scores : ℕ → ℕ → Option ℚ := fun w r =>
  if w = 1 then (if r = 1 then some 10 else if r = 2 then some 20 else none)
  else if w = 2 then (if r = 2 then some 30 else none)
  else none

/-- C1 counterexample: on c1Scores (N = 2 teams, W = 2 weeks, every alive team
scored every week) the simulation records 2 eliminations, not
min(W, N - 1) = 1: the sole survivor of week 1 is itself chopped in week 2. -/
theorem process_season_data_elimination_count_counterexample :
    ([1, 2] : List ℕ).Nodup ∧
    scoredWhileAliveB c1Scores (List.range' 1 2) [1, 2] = true ∧
    (runElim c1Scores (List.range' 1 2) [1, 2]).1.length = 2 ∧
    ¬ (runElim c1Scores (List.range' 1 2) [1, 2]).1.length = min 2 (2 - 1) := by
  refine ⟨by decide, by decide, by decide, by decide⟩

/-! ### Claim C2 -/

/-- C2 (confirmed): in any processed week, the eliminated team is the one
minimising the pair (score, roster id); in particular, among the alive teams
sharing the minimum recorded score it is the one with the lowest roster id.
The choice is a deterministic function of the week scores, being computed by
the pure function choppedTeam. -/
theorem process_season_data_tiebreak
    (scores : ℕ → ℕ → Option ℚ) (w : ℕ) (ws : List ℕ) (remaining : List ℕ)
    (h : weekScoresOf scores w remaining ≠ []) :
    (runElim scores (w :: ws) remaining).1.head? =
      some ((choppedTeam (weekScoresOf scores w remaining)).1, w) ∧
    choppedTeam (weekScoresOf scores w remaining) ∈ weekScoresOf scores w remaining ∧
    (choppedTeam (weekScoresOf scores w remaining)).2 =
      minScoreOf (weekScoresOf scores w remaining) ∧
    ∀ p ∈ weekScoresOf scores w remaining,
      p.2 = minScoreOf (weekScoresOf scores w remaining) →
        (choppedTeam (weekScoresOf scores w remaining)).1 ≤ p.1 := by
  refine ⟨?_, choppedTeam_mem _ h, choppedTeam_snd _ h, ?_⟩
  · simp only [runElim]
    rw [if_neg h]
    rfl
  · intro p hp hmin
    rcases choppedTeam_le _ h p hp with hlt | ⟨heq, hle⟩
    · rw [hmin, ← choppedTeam_snd _ h] at hlt
      exact absurd hlt (lt_irrefl _)
    · exact hle

/-- Week-score table with a genuine tie used to witness C2: teams 4 and 7
share the minimum score 50, team 9 scores 80. -/
def c2Scores : ℕ → ℕ → Option ℚ := fun w r =>
  if w = 1 then
    (if r = 9 then some 80 else if r = 4 then some 50 else if r = 7 then some 50 else none)
  else none

/-- Concrete witness for C2: with tied minimum scores for roster ids 4 and 7,
the chopped team is roster id 4, the lower identifier. -/
theorem process_season_data_tiebreak_witness :
    weekScoresOf c2Scores 1 [9, 4, 7] ≠ [] ∧
    ((runElim c2Scores [1] [9, 4, 7]).1.head? =
      some ((choppedTeam (weekScoresOf c2Scores 1 [9, 4, 7])).1, 1) ∧
    choppedTeam (weekScoresOf c2Scores 1 [9, 4, 7]) ∈ weekScoresOf c2Scores 1 [9, 4, 7] ∧
    (choppedTeam (weekScoresOf c2Scores 1 [9, 4, 7])).2 =
      minScoreOf (weekScoresOf c2Scores 1 [9, 4, 7]) ∧
    ∀ p ∈ weekScoresOf c2Scores 1 [9, 4, 7],
      p.2 = minScoreOf (weekScoresOf c2Scores 1 [9, 4, 7]) →
        (choppedTeam (weekScoresOf c2Scores 1 [9, 4, 7])).1 ≤ p.1) ∧
    (choppedTeam (weekScoresOf c2Scores 1 [9, 4, 7])).1 = 4 :=
  ⟨by decide, process_season_data_tiebreak c2Scores 1 [] [9, 4, 7] (by decide), by decide⟩

/-! ### Claim C3: finish positions (process_season_data, step 10) -/

/-- Model of the finish-position assignment: the survivor (chop_week None)
gets position 1, a team chopped in week w gets position total_teams - w + 1. -/
def finish_positionOf (total_teams : ℕ) (chop_week : Option ℕ) : ℕ :=
  match chop_week with
  | none => 1
  | some w => total_teams - w + 1

lemma list_option_decompose (l : List (Option ℕ)) :
    l.Perm (List.replicate (l.count none) none ++ (l.filterMap id).map some) := by
  induction l with
  | nil => simp
  | cons x l ih =>
    cases x with
    | none =>
      simpa [List.count_cons, List.replicate_succ] using ih.cons none
    | some a =>
      simp only [List.count_cons, List.filterMap_cons, id, List.map_cons,
        reduceCtorEq, if_false, Nat.add_zero]
      exact (ih.cons (some a)).trans List.perm_middle.symm

lemma range_map_flip (N : ℕ) : ∀ k, k ≤ N →
    ((List.range' 1 k).map (fun w => N + 1 - w + 1)).Perm (List.range' (N + 2 - k) k) := by
  intro k
  induction k with
  | zero => simp
  | succ k ih =>
    intro hk
    have hk' : k ≤ N := Nat.le_of_succ_le hk
    have hcat : List.range' 1 (k + 1) = List.range' 1 k ++ [1 + k] :=
      List.range'_1_concat 1 k
    have hrhs : List.range' (N + 2 - (k + 1)) (k + 1)
        = (N + 1 - k) :: List.range' (N + 2 - k) k := by
      have h1 : N + 2 - (k + 1) = N + 1 - k := by omega
      have h2 : (N + 1 - k) + 1 = N + 2 - k := by omega
      rw [h1, List.range'_succ, h2]
    rw [hcat, hrhs, List.map_append]
    have hval : (fun w => N + 1 - w + 1) (1 + k) = N + 1 - k := by
      simp only []
      omega
    simp only [List.map_cons, List.map_nil, hval]
    exact (List.perm_append_singleton _ _).trans ((ih hk').cons _)

/-- C3 (confirmed): in a complete season with N teams, where every manager
either has a chop week and those chop weeks are exactly 1..N-1, or is the
unique survivor, process_season_data assigns finish position 1 to the
survivor, position N - w + 1 to the team chopped in week w, and the multiset
of assigned finish positions is exactly 1..N. -/
theorem process_season_data_finish_positions
    (chops : List (Option ℕ)) (N : ℕ)
    (hN : chops.length = N)
    (hone : chops.count none = 1)
    (hperm : (chops.filterMap id).Perm (List.range' 1 (N - 1))) :
    finish_positionOf N none = 1 ∧
    (∀ w, finish_positionOf N (some w) = N - w + 1) ∧
    (chops.map (finish_positionOf N)).Perm (List.range' 1 N) := by
  refine ⟨rfl, fun w => rfl, ?_⟩
  have hNpos : 1 ≤ N := by
    have hmem : none ∈ chops := by
      have : 0 < chops.count none := by omega
      exact List.count_pos_iff.mp this
    have : 0 < chops.length := List.length_pos.mpr (by
      intro hcon
      rw [hcon] at hmem
      simp at hmem)
    omega
  obtain ⟨M, rfl⟩ : ∃ M, N = M + 1 := ⟨N - 1, by omega⟩
  have hM : M + 1 - 1 = M := by omega
  rw [hM] at hperm
  have h1 := (list_option_decompose chops).map (finish_positionOf (M + 1))
  rw [hone] at h1
  simp only [List.replicate_one, List.map_append, List.map_cons, List.map_nil,
    List.map_map] at h1
  have hcomp : (finish_positionOf (M + 1) ∘ some) = (fun w => M + 1 - w + 1) := by
    funext w
    rfl
  rw [hcomp] at h1
  have h2 := hperm.map (fun w => M + 1 - w + 1)
  have h3 := range_map_flip M M (le_refl _)
  have hidx : M + 2 - M = 2 := by omega
  rw [hidx] at h3
  have hrange : List.range' 1 (M + 1) = 1 :: List.range' 2 M := by
    rw [List.range'_succ]
  rw [hrange]
  exact h1.trans ((h2.trans h3).cons _)

/-- Concrete witness for C3: a complete 3-team season with chop weeks 1 and 2;
positions assigned are a permutation of 1..3. -/
theorem process_season_data_finish_positions_witness :
    ([some 1, some 2, none] : List (Option ℕ)).length = 3 ∧
    ([some 1, some 2, none] : List (Option ℕ)).count none = 1 ∧
    (([some 1, some 2, none] : List (Option ℕ)).filterMap id).Perm
      (List.range' 1 (3 - 1)) ∧
    (([some 1, some 2, none] : List (Option ℕ)).map (finish_positionOf 3)).Perm
      (List.range' 1 3) :=
  ⟨by decide, by decide, by decide,
    (process_season_data_finish_positions [some 1, some 2, none] 3
      (by decide) (by decide) (by decide)).2.2⟩

/-! ### Claim C4: FAAB wasted (process_season_data, step 5, second loop)

For each player the code sorts the collected bids by amount descending
(stable), finds the first completed bid as the winner, and, only when more
than one bid was collected, adds max(0, winning - second - 1) to the winning
roster, where second is the first bid of another roster in the descending
order. -/

/-- A waiver bid for a player in a week: bidding roster id, bid amount, and
whether the transaction status is the completed (winning) one. -/
structure Bid where
  roster_id : ℕ
  bid : ℤ
  status : Bool
deriving DecidableEq

/-- Ordering used by sorted with key bid, reverse; the non-strict form keeps
the stable order of the Python sort on ties. -/
def bidGe (a b : Bid) : Prop := b.bid ≤ a.bid

instance : DecidableRel bidGe := fun a b => by unfold bidGe; infer_instance

instance : IsTotal Bid bidGe := ⟨fun a b => le_total b.bid a.bid⟩

instance : IsTrans Bid bidGe := ⟨fun _ _ _ h₁ h₂ => le_trans h₂ h₁⟩

/-- Model of sorted(bids, key bid, reverse True): stable descending sort. -/
def sorted_bidsOf (bids : List Bid) : List Bid := bids.insertionSort bidGe

/-- Model of the winning-bid search: first completed bid in descending order. -/
def winning_bidOf (bids : List Bid) : Option Bid :=
  (sorted_bidsOf bids).find? (·.status)

/-- Model of the second-bid search: the first bid in the descending order not
belonging to the winning roster, defaulting to 0. -/
def second_bidOf (bids : List Bid) (winner : Bid) : ℤ :=
  match (sorted_bidsOf bids).find? (fun b => b.roster_id != winner.roster_id) with
  | none => 0
  | some b => b.bid

/-- Model of the wasted-FAAB amount one player contributes to the winning
roster in process_season_data: nonzero only when a winning bid exists, more
than one bid was collected for the player, and the winning roster id is
truthy. -/
def player_wastedOf (bids : List Bid) : ℤ :=
  match winning_bidOf bids with
  | none => 0
  | some w =>
    if 1 < (sorted_bidsOf bids).length ∧ w.roster_id ≠ 0 then
      max 0 (w.bid - second_bidOf bids w - 1)
    else 0

/-- The highest bid among the bids not belonging to the winning roster, 0 if
none: the quantity named second in the specification. -/
def specSecond (bids : List Bid) (winner : Bid) : ℤ :=
  ((bids.filter (fun b => b.roster_id != winner.roster_id)).map (·.bid)).foldr max 0

lemma find?_eq_of_filter_singleton {α} {p : α → Bool} :
    ∀ {l : List α} {w : α}, l.filter p = [w] → l.find? p = some w := by
  intro l
  induction l with
  | nil => simp
  | cons a l ih =>
    intro w hf
    by_cases hpa : p a = true
    · rw [List.filter_cons_of_pos hpa] at hf
      have h1 : a = w := (List.cons_eq_cons.mp hf).1
      rw [List.find?_cons_of_pos _ hpa, h1]
    · rw [List.filter_cons_of_neg (by simpa using hpa)] at hf
      rw [List.find?_cons_of_neg _ (by simpa using hpa)]
      exact ih hf

lemma sorted_find?_ge {p : Bid → Bool} :
    ∀ {l : List Bid} {b : Bid}, l.Pairwise bidGe → l.find? p = some b →
      ∀ x ∈ l, p x = true → x.bid ≤ b.bid := by
  intro l
  induction l with
  | nil => simp
  | cons a l ih =>
    intro b hpw hfind x hx hpx
    rcases List.pairwise_cons.mp hpw with ⟨ha, hl⟩
    by_cases hpa : p a = true
    · rw [List.find?_cons_of_pos _ hpa] at hfind
      have hab : a = b := Option.some.inj hfind
      rcases List.mem_cons.mp hx with rfl | hx'
      · exact le_of_eq (congrArg Bid.bid hab.symm).symm
      · exact hab ▸ ha x hx'
    · rw [List.find?_cons_of_neg _ (by simpa using hpa)] at hfind
      rcases List.mem_cons.mp hx with rfl | hx'
      · exact absurd hpx hpa
      · exact ih hl hfind x hx' hpx

lemma le_foldr_max (l : List ℤ) : ∀ x ∈ l, x ≤ l.foldr max 0 := by
  induction l with
  | nil => simp
  | cons a l ih =>
    intro x hx
    rcases List.mem_cons.mp hx with rfl | hx'
    · exact le_max_left _ _
    · exact (ih x hx').trans (le_max_right _ _)

lemma foldr_max_le (l : List ℤ) (m : ℤ) (h0 : 0 ≤ m) (hle : ∀ x ∈ l, x ≤ m) :
    l.foldr max 0 ≤ m := by
  induction l with
  | nil => simpa using h0
  | cons a l ih =>
    exact max_le (hle a (List.mem_cons_self _ _))
      (ih (fun x hx => hle x (List.mem_cons_of_mem _ hx)))

/-- C4 (amended): when a player has a completed (winning) bid and at least
two bids were collected for the player, the budget tracker adds
max(0, winningBid - second - 1) to the winning roster, with second the
highest bid not belonging to the winning roster (0 if there is none); but an
uncontested winning bid (the only bid collected for the player) adds 0, not
max(0, B - 1) as claimed. -/
theorem process_season_data_faab_wasted
    (bids : List Bid) (w : Bid)
    (hone : bids.filter (·.status) = [w])
    (hnn : ∀ b ∈ bids, 0 ≤ b.bid)
    (hr : w.roster_id ≠ 0) :
    (bids.length = 1 → player_wastedOf bids = 0) ∧
    (2 ≤ bids.length →
      player_wastedOf bids = max 0 (w.bid - specSecond bids w - 1)) := by
  have hperm : (sorted_bidsOf bids).Perm bids := List.perm_insertionSort bidGe bids
  have hsorted : (sorted_bidsOf bids).Pairwise bidGe :=
    List.sorted_insertionSort bidGe bids
  have hfilter : (sorted_bidsOf bids).filter (·.status) = [w] := by
    have := hperm.filter (·.status)
    rw [hone] at this
    exact List.perm_singleton.mp this
  have hwin : winning_bidOf bids = some w :=
    find?_eq_of_filter_singleton hfilter
  have hlen : (sorted_bidsOf bids).length = bids.length := hperm.length_eq
  constructor
  · intro h1
    simp only [player_wastedOf, hwin]
    rw [if_neg]
    intro hcon
    omega
  · intro h2
    simp only [player_wastedOf, hwin]
    rw [if_pos ⟨by omega, hr⟩]
    have hsecond : second_bidOf bids w = specSecond bids w := by
      unfold second_bidOf specSecond
      cases hfind : (sorted_bidsOf bids).find? (fun b => b.roster_id != w.roster_id) with
      | none =>
        have hnone : ∀ b ∈ bids, ¬ (b.roster_id != w.roster_id) = true := by
          intro b hb
          exact List.find?_eq_none.mp hfind b (hperm.mem_iff.mpr hb)
        have : bids.filter (fun b => b.roster_id != w.roster_id) = [] := by
          rw [List.filter_eq_nil_iff]
          exact hnone
        rw [this]
        rfl
      | some b =>
        have hbmem : b ∈ bids := hperm.mem_iff.mp (List.mem_of_find?_eq_some hfind)
        have hpb : (b.roster_id != w.roster_id) = true :=
          @List.find?_some Bid (fun c => c.roster_id != w.roster_id)
            b (sorted_bidsOf bids) hfind
        have hbfil : b ∈ bids.filter (fun b => b.roster_id != w.roster_id) :=
          List.mem_filter.mpr ⟨hbmem, hpb⟩
        have hmax : ∀ x ∈ (bids.filter
            (fun b => b.roster_id != w.roster_id)).map (·.bid), x ≤ b.bid := by
          intro x hx
          rcases List.mem_map.mp hx with ⟨c, hc, rfl⟩
          rcases List.mem_filter.mp hc with ⟨hcm, hcp⟩
          exact sorted_find?_ge hsorted hfind c (hperm.mem_iff.mpr hcm) hcp
        have hb0 : 0 ≤ b.bid := hnn b hbmem
        refine le_antisymm ?_ ?_
        · exact le_foldr_max _ _ (List.mem_map_of_mem _ hbfil)
        · exact foldr_max_le _ _ hb0 hmax
    rw [hsecond]

/-- Concrete witness for C4 (the scenario of the specification example): bids
TeamX 50 completed and TeamY 30 failed give wasted 50 - 30 - 1 = 19. -/
theorem process_season_data_faab_wasted_witness :
    (([⟨1, 50, true⟩, ⟨2, 30, false⟩] : List Bid).filter (·.status)
      = [⟨1, 50, true⟩]) ∧
    player_wastedOf [⟨1, 50, true⟩, ⟨2, 30, false⟩]
      = max 0 (50 - specSecond [⟨1, 50, true⟩, ⟨2, 30, false⟩] ⟨1, 50, true⟩ - 1) ∧
    player_wastedOf [⟨1, 50, true⟩, ⟨2, 30, false⟩] = 19 :=
  ⟨by decide,
    (process_season_data_faab_wasted [⟨1, 50, true⟩, ⟨2, 30, false⟩] ⟨1, 50, true⟩
      (by decide) (by decide) (by decide)).2 (by decide),
    by decide⟩

/-- C4 counterexample: a single uncontested completed bid of 50 adds 0 to the
wasted total, not max(0, 50 - 0 - 1) = 49 as the claim states. -/
theorem process_season_data_faab_wasted_counterexample :
    player_wastedOf [⟨5, 50, true⟩] = 0 ∧
    max 0 ((50 : ℤ) - 0 - 1) = 49 ∧
    player_wastedOf [⟨5, 50, true⟩] ≠ max 0 ((50 : ℤ) - 0 - 1) := by
  refine ⟨by decide, by decide, by decide⟩

/-! ### Claim C5: FAAB remaining (process_season_data, step 5, last block;
src/scripts/fix_faab_remaining.py) -/

/-- The starting budget constant of src/api/config.py. -/
def STARTING_FAAB : ℤ := 1000

/-- Model of the faab_remaining computation of process_season_data: a roster
present in the eliminations dict is shown 0, others the starting budget minus
the amount spent. -/
def faab_remainingOf (chop_week : Option ℕ) (spent : ℤ) : ℤ :=
  match chop_week with
  | some _ => 0
  | none => STARTING_FAAB - spent

/-- Model of the recomputation in src/scripts/fix_faab_remaining.py, which
sets remaining to the starting budget minus spent for every manager,
eliminated or not. -/
def fix_faab_remainingOf (spent : ℤ) : ℤ := STARTING_FAAB - spent

/-- C5 (code bug): process_season_data zeroes faab_remaining for eliminated
teams instead of reporting startingBudget - spent; the repository contains
fix_faab_remaining.py precisely to rewrite that output to
startingBudget - spent, so the two computations of the same quantity
disagree on every eliminated team with positive spend. -/
theorem process_season_data_faab_remaining_bug :
    faab_remainingOf (some 3) 250 = 0 ∧
    fix_faab_remainingOf 250 = 750 ∧
    faab_remainingOf (some 3) 250 ≠ fix_faab_remainingOf 250 ∧
    faab_remainingOf none 250 = fix_faab_remainingOf 250 := by
  refine ⟨rfl, rfl, by decide, rfl⟩

/-! ### Claim C6: close-call flag (process_season_data, step 6;
also calculate_close_calls in src/scripts/add_close_calls.py) -/

/-- The close-call threshold constant of the two sources. -/
def CLOSE_CALL_POINTS_THRESHOLD : ℚ := 5

/-- Model of the close-call decision shared by process_season_data and
add_close_calls.py: n is the number of alive teams with a recorded score this
week, rank the 1-indexed rank of the team by descending score, my_score its
score and chop_score the week chop score.  The quantity n - rank is the
positionsAboveChop of the claim. -/
def is_close_callOf (n rank : ℕ) (my_score chop_score : ℚ) : Bool :=
  if n - rank = 1 then true
  else if 0 < n - rank ∧ my_score - chop_score ≤ CLOSE_CALL_POINTS_THRESHOLD then true
  else false

/-- C6 (confirmed): the close-call flag is set if and only if
positionsAboveChop = 1, or positionsAboveChop is positive and the score minus
the week chop score is at most 5.0; the first disjunct makes a team one rank
above the chop a close call regardless of its point margin. -/
theorem process_season_data_close_call_iff (n rank : ℕ) (my_score chop_score : ℚ) :
    is_close_callOf n rank my_score chop_score = true ↔
      (n - rank = 1 ∨ (0 < n - rank ∧ my_score - chop_score ≤ 5)) := by
  unfold is_close_callOf CLOSE_CALL_POINTS_THRESHOLD
  by_cases h1 : n - rank = 1
  · simp [h1]
  · simp only [if_neg h1]
    by_cases h2 : 0 < n - rank ∧ my_score - chop_score ≤ 5
    · simp [h1, h2]
    · simp [h1, h2]

/-! ### Claim C7: weekly statistics (process_season_data, step 7)

The statistics are taken over the recorded scores of the teams alive in the
week: high_score is max, chop_score is min, chop_differential the rounded gap
between the two lowest scores, median is statistics.median, and the quartiles
come from statistics.quantiles with n = 4 and the default exclusive method,
falling back to max and min when fewer than 4 scores exist. -/

/-- Model of Python sorted on rationals: stable ascending sort. -/
def sortAsc (l : List ℚ) : List ℚ := l.insertionSort (· ≤ ·)

/-- Model of Python max on a nonempty list of rationals. -/
def maxListQ (l : List ℚ) : ℚ :=
  match l with
  | [] => 0
  | x :: xs => xs.foldl max x

/-- Model of Python min on a nonempty list of rationals. -/
def minListQ (l : List ℚ) : ℚ :=
  match l with
  | [] => 0
  | x :: xs => xs.foldl min x

/-- Model of statistics.median. -/
def pyMedian (l : List ℚ) : ℚ :=
  let ld := sortAsc l
  let n := ld.length
  if n % 2 = 1 then ld.getD (n / 2) 0
  else (ld.getD (n / 2 - 1) 0 + ld.getD (n / 2) 0) / 2

/-- One interpolated point of statistics.quantiles with n = 4 and the default
exclusive method, over the sorted data ld of length nd: index j = i*(nd+1)/4
clamped to 1..nd-1, and linear interpolation between ld at j-1 and at j with
weight delta = i*(nd+1) - 4*j quarters. -/
def quantilePoint (ld : List ℚ) (nd i : ℕ) : ℚ :=
  let m := nd + 1
  let j0 := i * m / 4
  let j := if j0 < 1 then 1 else if j0 > nd - 1 then nd - 1 else j0
  let delta : ℤ := (i * m : ℤ) - (j * 4 : ℤ)
  (ld.getD (j - 1) 0 * (((4 : ℤ) - delta : ℤ) : ℚ) + ld.getD j 0 * (delta : ℚ)) / 4

/-- Model of statistics.quantiles(data, n = 4), exclusive method: the three
quartile points over the sorted data. -/
def pyQuantiles4 (l : List ℚ) : List ℚ :=
  let ld := sortAsc l
  (List.range' 1 3).map (quantilePoint ld ld.length)

/-- The record stored in weekly_stats for a played week. -/
structure WeeklyStats where
  high_score : ℚ
  percentile_75 : ℚ
  median : ℚ
  percentile_25 : ℚ
  chop_score : ℚ
  chop_differential : ℚ
deriving DecidableEq

/-- Model of the weekly statistics computed in step 7 of process_season_data
for a week: none when no alive-team score exists (the week is then skipped). -/
def weekly_statsOf (scores : List ℚ) : Option WeeklyStats :=
  if scores = [] then none
  else
    let sorted_scores := sortAsc scores
    let n := scores.length
    some {
      high_score := maxListQ scores
      percentile_75 := if 4 ≤ n then (pyQuantiles4 scores).getD 2 0 else maxListQ scores
      median := pyMedian scores
      percentile_25 := if 4 ≤ n then (pyQuantiles4 scores).getD 0 0 else minListQ scores
      chop_score := minListQ scores
      chop_differential :=
        if 2 ≤ n then round2 (sorted_scores.getD 1 0 - sorted_scores.getD 0 0) else 0 }

/-! Lemmas about foldl max, mirroring the foldl min ones. -/

lemma init_le_foldl_max (l : List ℚ) (init : ℚ) : init ≤ l.foldl max init := by
  induction l generalizing init with
  | nil => simp
  | cons a l ih =>
    simpa using (le_max_left init a).trans (ih (max init a))

lemma mem_le_foldl_max (l : List ℚ) (init : ℚ) : ∀ y ∈ l, y ≤ l.foldl max init := by
  induction l generalizing init with
  | nil => simp
  | cons a l ih =>
    intro y hy
    rcases List.mem_cons.mp hy with rfl | hy'
    · simpa using (le_max_right init y).trans (init_le_foldl_max l (max init y))
    · simpa using ih (max init a) y hy'

lemma foldl_max_eq_init_or_mem (l : List ℚ) (init : ℚ) :
    l.foldl max init = init ∨ l.foldl max init ∈ l := by
  induction l generalizing init with
  | nil => simp
  | cons a l ih =>
    rcases ih (max init a) with h | h
    · rcases max_choice init a with hc | hc
      · left
        simpa [hc] using h
      · right
        rw [List.foldl_cons, h, hc]
        exact List.mem_cons_self _ _
    · right
      exact List.mem_cons_of_mem _ (by simpa using h)

lemma minListQ_le (l : List ℚ) : ∀ x ∈ l, minListQ l ≤ x := by
  intro x hx
  match l, hx with
  | a :: xs, hx =>
    rcases List.mem_cons.mp hx with rfl | hx'
    · exact foldl_min_le_init _ _
    · exact foldl_min_le_mem _ _ _ hx'

lemma minListQ_mem (l : List ℚ) (h : l ≠ []) : minListQ l ∈ l := by
  match l with
  | a :: xs =>
    rcases foldl_min_eq_init_or_mem xs a with h' | h'
    · rw [minListQ, h']
      exact List.mem_cons_self _ _
    · exact List.mem_cons_of_mem _ (by rw [minListQ]; exact h')

lemma le_maxListQ (l : List ℚ) : ∀ x ∈ l, x ≤ maxListQ l := by
  intro x hx
  match l, hx with
  | a :: xs, hx =>
    rcases List.mem_cons.mp hx with rfl | hx'
    · exact init_le_foldl_max _ _
    · exact mem_le_foldl_max _ _ _ hx'

lemma maxListQ_mem (l : List ℚ) (h : l ≠ []) : maxListQ l ∈ l := by
  match l with
  | a :: xs =>
    rcases foldl_max_eq_init_or_mem xs a with h' | h'
    · rw [maxListQ, h']
      exact List.mem_cons_self _ _
    · exact List.mem_cons_of_mem _ (by rw [maxListQ]; exact h')

lemma getD_mem {l : List ℚ} {n : ℕ} (h : n < l.length) (d : ℚ) : l.getD n d ∈ l := by
  rw [List.getD_eq_getElem l d h]
  exact List.getElem_mem h

/-- Both quartile points used by the code lie between the minimum and the
maximum of the data when the data has at least 4 points. -/
lemma quantilePoint_bounds (ld : List ℚ) (i : ℕ) (hi1 : 1 ≤ i) (hi3 : i ≤ 3)
    (hn : 4 ≤ ld.length) (μ M : ℚ)
    (hμ : ∀ x ∈ ld, μ ≤ x) (hM : ∀ x ∈ ld, x ≤ M) :
    μ ≤ quantilePoint ld ld.length i ∧ quantilePoint ld ld.length i ≤ M := by
  set n := ld.length with hn'
  set P := i * (n + 1) with hP
  have hP1 : n + 1 ≤ P := by
    have h := Nat.mul_le_mul_right (n + 1) hi1
    simpa [hP] using h
  have hP2 : P ≤ 3 * (n + 1) := Nat.mul_le_mul_right (n + 1) hi3
  have hj1 : 1 ≤ P / 4 := by omega
  have hj2 : P / 4 ≤ n - 1 := by omega
  simp only [quantilePoint]
  rw [← hP]
  rw [if_neg (by omega), if_neg (by omega)]
  have hcast : ((i : ℤ) * ((n : ℕ) + 1 : ℕ)) = (P : ℤ) := by
    rw [hP]
    push_cast
    ring
  rw [hcast]
  have hd0 : (0 : ℤ) ≤ (P : ℤ) - (P / 4 : ℕ) * 4 := by omega
  have hd4 : (P : ℤ) - (P / 4 : ℕ) * 4 ≤ 4 := by omega
  set delta : ℤ := (P : ℤ) - (P / 4 : ℕ) * 4 with hd
  have hjm1 : P / 4 - 1 < ld.length := by omega
  have hjlt : P / 4 < ld.length := by omega
  have ha := getD_mem hjm1 (0 : ℚ)
  have hb := getD_mem hjlt (0 : ℚ)
  set a := ld.getD (P / 4 - 1) 0 with hA
  set b := ld.getD (P / 4) 0 with hB
  have hμa : μ ≤ a := hμ a ha
  have hμb : μ ≤ b := hμ b hb
  have haM : a ≤ M := hM a ha
  have hbM : b ≤ M := hM b hb
  have hq0 : (0 : ℚ) ≤ (delta : ℚ) := by exact_mod_cast hd0
  have hq4 : (delta : ℚ) ≤ 4 := by exact_mod_cast hd4
  have e1 : ((4 - delta : ℤ) : ℚ) = 4 - (delta : ℚ) := by push_cast; ring
  rw [e1]
  constructor
  · rw [le_div_iff₀ (by norm_num : (0:ℚ) < 4)]
    have key1 : 0 ≤ (a - μ) * (4 - (delta : ℚ)) :=
      mul_nonneg (by linarith) (by linarith)
    have key2 : 0 ≤ (b - μ) * (delta : ℚ) :=
      mul_nonneg (by linarith) (by linarith)
    nlinarith [key1, key2]
  · rw [div_le_iff₀ (by norm_num : (0:ℚ) < 4)]
    have key1 : 0 ≤ (M - a) * (4 - (delta : ℚ)) :=
      mul_nonneg (by linarith) (by linarith)
    have key2 : 0 ≤ (M - b) * (delta : ℚ) :=
      mul_nonneg (by linarith) (by linarith)
    nlinarith [key1, key2]

/-- C7 (amended): for a played week, low (chop_score) is the minimum of the
alive scores, high_score the maximum; chop_differential is the second-lowest
minus the lowest rounded to 2 decimals when at least 2 scores exist and 0
otherwise; with fewer than 4 scores the quartiles degenerate to high and low;
with 4 or more scores the quartiles are linearly interpolated by the
exclusive method of statistics.quantiles, so they lie between low and high
but need not be exact data points (the claimed non-interpolated exact
boundaries fail). -/
theorem process_season_data_weekly_stats
    (scores : List ℚ) (st : WeeklyStats) (l : List ℚ)
    (hst : weekly_statsOf scores = some st)
    (hperm : l.Perm scores) (hsort : l.Sorted (· ≤ ·)) :
    (st.chop_score ∈ scores ∧ ∀ x ∈ scores, st.chop_score ≤ x) ∧
    (st.high_score ∈ scores ∧ ∀ x ∈ scores, x ≤ st.high_score) ∧
    (2 ≤ scores.length → st.chop_differential = round2 (l.getD 1 0 - l.getD 0 0)) ∧
    (scores.length < 2 → st.chop_differential = 0) ∧
    (scores.length < 4 →
      st.percentile_75 = st.high_score ∧ st.percentile_25 = st.chop_score) ∧
    (4 ≤ scores.length →
      st.chop_score ≤ st.percentile_25 ∧ st.percentile_75 ≤ st.high_score) := by
  have hne : scores ≠ [] := by
    intro h
    rw [h] at hst
    simp [weekly_statsOf] at hst
  have hsa : sortAsc scores = l :=
    List.eq_of_perm_of_sorted ((List.perm_insertionSort _ _).trans hperm.symm)
      (List.sorted_insertionSort _ _) hsort
  unfold weekly_statsOf at hst
  rw [if_neg hne] at hst
  have hrec := Option.some.inj hst
  subst hrec
  refine ⟨⟨minListQ_mem scores hne, minListQ_le scores⟩,
    ⟨maxListQ_mem scores hne, le_maxListQ scores⟩, ?_, ?_, ?_, ?_⟩
  · intro h2
    show (if 2 ≤ scores.length then _ else (0:ℚ)) = _
    rw [if_pos h2, hsa]
  · intro h2
    show (if 2 ≤ scores.length then _ else (0:ℚ)) = 0
    rw [if_neg (by omega)]
  · intro h4
    constructor
    · show (if 4 ≤ scores.length then _ else maxListQ scores) = _
      rw [if_neg (by omega)]
    · show (if 4 ≤ scores.length then _ else minListQ scores) = _
      rw [if_neg (by omega)]
  · intro h4
    have hlen : l.length = scores.length := hperm.length_eq
    have hq : pyQuantiles4 scores
        = [quantilePoint l l.length 1, quantilePoint l l.length 2,
           quantilePoint l l.length 3] := by
      simp only [pyQuantiles4, hsa]
      rfl
    have hμ : ∀ x ∈ l, minListQ scores ≤ x := fun x hx =>
      minListQ_le scores x (hperm.mem_iff.mp hx)
    have hM : ∀ x ∈ l, x ≤ maxListQ scores := fun x hx =>
      le_maxListQ scores x (hperm.mem_iff.mp hx)
    have hb1 := quantilePoint_bounds l 1 (by norm_num) (by norm_num)
      (by omega) (minListQ scores) (maxListQ scores) hμ hM
    have hb3 := quantilePoint_bounds l 3 (by norm_num) (by norm_num)
      (by omega) (minListQ scores) (maxListQ scores) hμ hM
    constructor
    · show minListQ scores ≤ (if 4 ≤ scores.length then (pyQuantiles4 scores).getD 0 0
        else minListQ scores)
      rw [if_pos h4, hq]
      exact hb1.1
    · show (if 4 ≤ scores.length then (pyQuantiles4 scores).getD 2 0
        else maxListQ scores) ≤ maxListQ scores
      rw [if_pos h4, hq]
      exact hb3.2

/-- The weekly-stats record for the two-score week used as C7 witness. -/
def c7Stats : WeeklyStats := ⟨20, 20, 15, 10, 10, 10⟩

/-- Concrete witness for C7: the week scores 10 and 20 give high 20, chop 10,
median 15, degenerate quartiles 20 and 10, and spread 10. -/
theorem process_season_data_weekly_stats_witness :
    weekly_statsOf [10, 20] = some c7Stats ∧
    ((c7Stats.chop_score ∈ ([10, 20] : List ℚ) ∧
        ∀ x ∈ ([10, 20] : List ℚ), c7Stats.chop_score ≤ x) ∧
      (c7Stats.high_score ∈ ([10, 20] : List ℚ) ∧
        ∀ x ∈ ([10, 20] : List ℚ), x ≤ c7Stats.high_score) ∧
      (2 ≤ ([10, 20] : List ℚ).length →
        c7Stats.chop_differential
          = round2 (([10, 20] : List ℚ).getD 1 0 - ([10, 20] : List ℚ).getD 0 0)) ∧
      (([10, 20] : List ℚ).length < 2 → c7Stats.chop_differential = 0) ∧
      (([10, 20] : List ℚ).length < 4 →
        c7Stats.percentile_75 = c7Stats.high_score ∧
        c7Stats.percentile_25 = c7Stats.chop_score) ∧
      (4 ≤ ([10, 20] : List ℚ).length →
        c7Stats.chop_score ≤ c7Stats.percentile_25 ∧
        c7Stats.percentile_75 ≤ c7Stats.high_score)) := by
  have h : weekly_statsOf [10, 20] = some c7Stats := by
    unfold weekly_statsOf
    rw [if_neg (by decide)]
    norm_num [pyMedian, sortAsc, List.insertionSort,
      List.orderedInsert, maxListQ, minListQ, round2, round_eq, c7Stats]
  exact ⟨h, process_season_data_weekly_stats [10, 20] c7Stats [10, 20] h
    (List.Perm.refl _) (by decide)⟩

/-- C7 counterexample: over the scores 10, 20, 30, 40, 50 the code reports
percentile_25 = 15, an interpolated value that is not an element of the data,
hence not an exact non-interpolated quartile boundary of the sorted data. -/
theorem process_season_data_weekly_stats_counterexample :
    (weekly_statsOf [10, 20, 30, 40, 50]).map (fun st => st.percentile_25)
      = some 15 ∧
    ¬ ((15 : ℚ) ∈ ([10, 20, 30, 40, 50] : List ℚ)) := by
  constructor
  · unfold weekly_statsOf
    rw [if_neg (by decide)]
    rw [Option.map_some']
    norm_num [pyQuantiles4, quantilePoint, sortAsc,
      List.insertionSort, List.orderedInsert]
  · decide

/-! ### Ranking engine (process_season_data, step 6)

For a roster and week, the code lists the (identifier, score) pairs of alive
teams with a recorded score, sorts them by score descending (a stable sort),
scans for the first entry with the identifier to get the 1-indexed rank, and
counts teams-alive minus rank as the position above the chop. -/

/-- Descending comparison of (identifier, score) entries by score; the
non-strict form keeps the stable order of the Python sort on ties. -/
def scoreGe (a b : ℕ × ℚ) : Prop := b.2 ≤ a.2

instance : DecidableRel scoreGe := fun a b => by unfold scoreGe; infer_instance

instance : IsTotal (ℕ × ℚ) scoreGe := ⟨fun a b => le_total b.2 a.2⟩

instance : IsTrans (ℕ × ℚ) scoreGe := ⟨fun _ _ _ h₁ h₂ => le_trans h₂ h₁⟩

/-- Model of week_scores.sort(key score, reverse True): stable descending. -/
def rankSort (l : List (ℕ × ℚ)) : List (ℕ × ℚ) := l.insertionSort scoreGe

/-- Model of the rank scan: the position above chop of the entry with the
given identifier, that is teams-alive minus the 1-indexed descending rank;
none when the week has no entries or the identifier has no entry. -/
def positionAboveOf (l : List (ℕ × ℚ)) (who : ℕ) : Option ℕ :=
  if l = [] then none
  else
    let sorted := rankSort l
    let i := sorted.findIdx (fun p => p.1 == who)
    if i < sorted.length then some (sorted.length - (i + 1)) else none

/-- The season data consumed by step 6 of process_season_data: roster ids in
dict order, the raw weekly points, the current week, and the eliminations map
produced by the elimination loop. -/
structure SeasonData where
  rosterOrder : List ℕ
  rawScores : ℕ → ℕ → Option ℚ
  currentWeek : ℕ
  elim : ℕ → Option ℕ

/-- Model of the all_scores table, which is populated by the fetch loop for
weeks 1 through current_week only. -/
def allScores (d : SeasonData) (w r : ℕ) : Option ℚ :=
  if 1 ≤ w ∧ w ≤ d.currentWeek then d.rawScores w r else none

/-- Model of alive_in_week: rosters whose elimination week is absent or at
least the given week, in roster order. -/
def aliveInWeek (d : SeasonData) (w : ℕ) : List ℕ :=
  d.rosterOrder.filter fun r =>
    match d.elim r with
    | none => true
    | some e => decide (w ≤ e)

/-- Model of the per-week (roster_id, score) pairs over the alive rosters
with a recorded score, in roster order. -/
def mainWeekEntries (d : SeasonData) (w : ℕ) : List (ℕ × ℚ) :=
  (aliveInWeek d w).filterMap fun r => (allScores d w r).map fun s => (r, s)

/-- Model of end_week: the chop week when eliminated, otherwise the current
week. -/
def end_weekOf (d : SeasonData) (rid : ℕ) : ℕ := (d.elim rid).getD d.currentWeek

/-- Model of the positions_above list accumulated for a roster over weeks 1
through end_week; a week contributes nothing when the roster has no ranked
entry there. -/
def positions_aboveOf (d : SeasonData) (rid : ℕ) : List ℕ :=
  (List.range' 1 (end_weekOf d rid)).filterMap fun w =>
    positionAboveOf (mainWeekEntries d w) rid

/-- Model of avg_position_above_chop of process_season_data: the mean of the
accumulated positions rounded to 1 decimal, 0 when no week contributed. -/
def avg_position_above_chopOf (d : SeasonData) (rid : ℕ) : ℚ :=
  if positions_aboveOf d rid = [] then 0
  else round1 (ratMean ((positions_aboveOf d rid).map (Nat.cast : ℕ → ℚ)))

/-- The weeks from 1 through end_week in which the roster has a ranked entry:
the counted weeks of claim C8. -/
def countedWeeksOf (d : SeasonData) (rid : ℕ) : List ℕ :=
  (List.range' 1 (end_weekOf d rid)).filter fun w =>
    (mainWeekEntries d w).any fun p => p.1 == rid

lemma positionAboveOf_isSome (l : List (ℕ × ℚ)) (who : ℕ) :
    (positionAboveOf l who).isSome = l.any fun p => p.1 == who := by
  unfold positionAboveOf
  by_cases hl : l = []
  · simp [hl]
  · rw [if_neg hl]
    have hperm : (rankSort l).Perm l := List.perm_insertionSort _ _
    by_cases hfound : (rankSort l).findIdx (fun p => p.1 == who) < (rankSort l).length
    · rw [if_pos hfound]
      rcases List.findIdx_lt_length.mp hfound with ⟨x, hx, hpx⟩
      have : l.any (fun p => p.1 == who) = true :=
        List.any_eq_true.mpr ⟨x, hperm.mem_iff.mp hx, hpx⟩
      simp [this]
    · rw [if_neg hfound]
      have hnone : ∀ x ∈ l, ¬ (x.1 == who) = true := by
        intro x hx hpx
        exact hfound (List.findIdx_lt_length.mpr ⟨x, hperm.mem_iff.mpr hx, hpx⟩)
      have : l.any (fun p => p.1 == who) = false := by
        rw [← Bool.not_eq_true, List.any_eq_true]
        rintro ⟨x, hx, hpx⟩
        exact hnone x hx hpx
      simp [this]

lemma filterMap_eq_map_filter {α} (f : α → Option ℕ) (l : List α) :
    l.filterMap f = (l.filter fun a => (f a).isSome).map fun a => (f a).getD 0 := by
  induction l with
  | nil => simp
  | cons a l ih =>
    cases hf : f a with
    | none => simp [List.filterMap_cons, List.filter_cons, hf, ih]
    | some b => simp [List.filterMap_cons, List.filter_cons, hf, ih]

lemma positions_aboveOf_eq_map (d : SeasonData) (rid : ℕ) :
    positions_aboveOf d rid = (countedWeeksOf d rid).map fun w =>
      (positionAboveOf (mainWeekEntries d w) rid).getD 0 := by
  unfold positions_aboveOf countedWeeksOf
  rw [filterMap_eq_map_filter]
  congr 1
  apply List.filter_congr
  intro w _
  rw [positionAboveOf_isSome]

/-! ### Claim C8 -/

/-- C8 (confirmed): avg_pos_above_chop is the arithmetic mean of the
positionsAboveChop values over the counted weeks, from week 1 through the
elimination week (or the current week when never eliminated), rounded to 1
decimal, and is 0 when no week is counted; being a total function of the
season data, it raises no arithmetic fault on zero counted weeks. -/
theorem process_season_data_avg_pos_above_chop (d : SeasonData) (rid : ℕ) :
    (countedWeeksOf d rid = [] → avg_position_above_chopOf d rid = 0) ∧
    (countedWeeksOf d rid ≠ [] →
      avg_position_above_chopOf d rid =
        round1 ((((countedWeeksOf d rid).map fun w =>
            (Nat.cast ((positionAboveOf (mainWeekEntries d w) rid).getD 0) : ℚ)).sum)
          / ((countedWeeksOf d rid).length : ℚ))) := by
  have hpos := positions_aboveOf_eq_map d rid
  constructor
  · intro hnil
    unfold avg_position_above_chopOf
    rw [if_pos (by rw [hpos, hnil]; rfl)]
  · intro hne
    unfold avg_position_above_chopOf
    rw [if_neg (by rw [hpos]; simpa using hne)]
    unfold ratMean
    rw [hpos, List.map_map]
    simp only [List.length_map]
    rfl

/-- A complete 2-team, 1-week season used to witness C8. -/
def d8 : SeasonData :=
  ⟨[1, 2],
   fun w r =>
     if w = 1 then (if r = 1 then some 30 else if r = 2 then some 20 else none)
     else none,
   1,
   fun r => if r = 2 then some 1 else none⟩

/-- Concrete witness for C8: roster 1 of d8 has one counted week with the
mean formula applying, and a roster absent from the data has zero counted
weeks and average 0. -/
theorem process_season_data_avg_pos_above_chop_witness :
    countedWeeksOf d8 1 ≠ [] ∧
    avg_position_above_chopOf d8 1 =
      round1 ((((countedWeeksOf d8 1).map fun w =>
          (Nat.cast ((positionAboveOf (mainWeekEntries d8 w) 1).getD 0) : ℚ)).sum)
        / ((countedWeeksOf d8 1).length : ℚ)) ∧
    countedWeeksOf d8 5 = [] ∧
    avg_position_above_chopOf d8 5 = 0 :=
  ⟨by decide, (process_season_data_avg_pos_above_chop d8 1).2 (by decide),
   by decide, (process_season_data_avg_pos_above_chop d8 5).1 (by decide)⟩

/-! ### Claim C9: the standalone recomputation in fix_avg_above_chop.py

The script recomputes the average from the manager records of the emitted
JSON: it identifies teams by user_name, iterates the managers in their list
order (the pipeline sorts that list before emitting), reads scores from the
weekly_scores dict, and runs weeks 1..17 for survivors. -/

/-- Model of the per-manager weekly_scores dict built in step 8 of
process_season_data: a value only for weeks up to the current week that are
not strictly beyond the chop week. -/
def weekly_scores_dictOf (d : SeasonData) (rid : ℕ) (w : ℕ) : Option ℚ :=
  if w ≤ d.currentWeek then
    match d.elim rid with
    | none => allScores d w rid
    | some c => if w ≤ c then allScores d w rid else none
  else none

/-- A manager record as consumed by the script: display name (modelled by the
roster id), chop week, and the weekly scores dict. -/
structure ManagerRec where
  user_name : ℕ
  chop_week : Option ℕ
  weekly_scores : ℕ → Option ℚ

/-- The manager record process_season_data builds for a roster. -/
def managerRecOf (d : SeasonData) (rid : ℕ) : ManagerRec :=
  ⟨rid, d.elim rid, weekly_scores_dictOf d rid⟩

/-- The manager records of the pipeline in roster order; the script receives
some permutation of these. -/
def mainRecords (d : SeasonData) : List ManagerRec :=
  d.rosterOrder.map (managerRecOf d)

/-- Aliveness test of the script: not chopped strictly before the week. -/
def fixerAlive (m : ManagerRec) (w : ℕ) : Bool :=
  match m.chop_week with
  | none => true
  | some c => decide (w ≤ c)

/-- The week entries (user_name, score) collected by
calculate_rank_based_avg_above_chop, in managers-list order. -/
def fixerWeekEntries (ms : List ManagerRec) (w : ℕ) : List (ℕ × ℚ) :=
  ms.filterMap fun m =>
    if fixerAlive m w then (m.weekly_scores w).map fun s => (m.user_name, s) else none

/-- Model of the end week of the script: the chop week, or 17 for survivors. -/
def fixerEndWeek (m : ManagerRec) : ℕ := m.chop_week.getD 17

/-- The positions list accumulated by the script for one manager. -/
def fixerPositions (ms : List ManagerRec) (m : ManagerRec) : List ℕ :=
  (List.range' 1 (fixerEndWeek m)).filterMap fun w =>
    positionAboveOf (fixerWeekEntries ms w) m.user_name

/-- Model of calculate_rank_based_avg_above_chop of fix_avg_above_chop.py. -/
def calculate_rank_based_avg_above_chop (ms : List ManagerRec) (m : ManagerRec) : ℚ :=
  if fixerPositions ms m = [] then 0
  else round1 (ratMean ((fixerPositions ms m).map (Nat.cast : ℕ → ℚ)))

/-! Rank-versus-count lemmas: in a descending sorted list with pairwise
distinct identifiers and scores, the position above chop of an entry is the
number of entries with a strictly smaller score, which is invariant under the
iteration order of the construction. -/

lemma sorted_rank_count :
    ∀ {L : List (ℕ × ℚ)}, L.Pairwise scoreGe →
      (L.map Prod.fst).Nodup → (L.map Prod.snd).Nodup →
      ∀ {who : ℕ} {s : ℚ}, (who, s) ∈ L →
      L.findIdx (fun p => p.1 == who) < L.length ∧
      L.length - (L.findIdx (fun p => p.1 == who) + 1)
        = L.countP fun p => decide (p.2 < s) := by
  intro L
  induction L with
  | nil =>
    intro _ _ _ who s hm
    simp at hm
  | cons q T ih =>
    intro hpw hnn hns who s hm
    rcases List.pairwise_cons.mp hpw with ⟨hq, hT⟩
    rw [List.map_cons] at hnn hns
    rcases List.nodup_cons.mp hnn with ⟨hq1, hnn'⟩
    rcases List.nodup_cons.mp hns with ⟨hq2, hns'⟩
    by_cases hqw : q.1 = who
    · have hqe : q = (who, s) := by
        rcases List.mem_cons.mp hm with h | h
        · exact h.symm
        · exact absurd (hqw ▸ List.mem_map_of_mem Prod.fst h) hq1
      have hbeq : (q.1 == who) = true := by simp [hqw]
      constructor
      · rw [List.findIdx_cons, hbeq]
        simp
      · rw [List.findIdx_cons, hbeq]
        simp only [cond_true, List.length_cons]
        rw [List.countP_cons]
        have hqs : ¬ ((q.2 : ℚ) < s) := by
          rw [hqe]
          exact lt_irrefl s
        rw [if_neg (by simpa using hqs)]
        have hall : T.countP (fun p => decide (p.2 < s)) = T.length := by
          rw [List.countP_eq_length]
          intro x hx
          have h1 : x.2 ≤ q.2 := hq x hx
          have h2 : x.2 ≠ q.2 := by
            intro he
            exact hq2 (he ▸ List.mem_map_of_mem Prod.snd hx)
          have h3 : x.2 < s := by
            have : q.2 = s := by rw [hqe]
            rw [← this]
            exact lt_of_le_of_ne h1 h2
          simpa using h3
        rw [hall]
        omega
    · have hmT : (who, s) ∈ T := by
        rcases List.mem_cons.mp hm with h | h
        · exact absurd (congrArg Prod.fst h.symm) hqw
        · exact h
      obtain ⟨hlt, heq⟩ := ih hT hnn' hns' hmT
      have hbeq : (q.1 == who) = false := by simp [hqw]
      constructor
      · rw [List.findIdx_cons, hbeq]
        simp only [cond_false, List.length_cons]
        omega
      · rw [List.findIdx_cons, hbeq]
        simp only [cond_false, List.length_cons]
        rw [List.countP_cons]
        have hsq : s ≤ q.2 := hq (who, s) hmT
        have hsne : s ≠ q.2 := by
          intro he
          exact hq2 (he ▸ List.mem_map_of_mem Prod.snd hmT)
        have hnot : ¬ ((q.2 : ℚ) < s) := not_lt.mpr (le_of_lt (lt_of_le_of_ne hsq hsne))
        rw [if_neg (by simpa using hnot)]
        omega

lemma positionAboveOf_eq_countP (l : List (ℕ × ℚ))
    (hnn : (l.map Prod.fst).Nodup) (hns : (l.map Prod.snd).Nodup)
    {who : ℕ} {s : ℚ} (hm : (who, s) ∈ l) :
    positionAboveOf l who = some (l.countP fun p => decide (p.2 < s)) := by
  have hne : l ≠ [] := by
    rintro rfl
    simp at hm
  have hperm : (rankSort l).Perm l := List.perm_insertionSort _ _
  have hs : (rankSort l).Pairwise scoreGe := List.sorted_insertionSort _ _
  have hnn' : ((rankSort l).map Prod.fst).Nodup := (hperm.map Prod.fst).nodup_iff.mpr hnn
  have hns' : ((rankSort l).map Prod.snd).Nodup := (hperm.map Prod.snd).nodup_iff.mpr hns
  obtain ⟨hlt, heq⟩ := sorted_rank_count hs hnn' hns' (hperm.mem_iff.mpr hm)
  simp only [positionAboveOf]
  rw [if_neg hne, if_pos hlt, heq, hperm.countP_eq]

lemma positionAboveOf_eq_none (l : List (ℕ × ℚ)) (who : ℕ)
    (h : ∀ p ∈ l, p.1 ≠ who) : positionAboveOf l who = none := by
  simp only [positionAboveOf]
  by_cases hl : l = []
  · rw [if_pos hl]
  · rw [if_neg hl]
    have hperm : (rankSort l).Perm l := List.perm_insertionSort _ _
    have hlen : (rankSort l).findIdx (fun p => p.1 == who) = (rankSort l).length := by
      apply List.findIdx_eq_length_of_false
      intro x hx
      simpa using h x (hperm.mem_iff.mp hx)
    rw [if_neg (by rw [hlen]; exact lt_irrefl _)]

lemma positionAboveOf_perm {l₁ l₂ : List (ℕ × ℚ)} (hperm : l₁.Perm l₂)
    (hnn : (l₁.map Prod.fst).Nodup) (hns : (l₁.map Prod.snd).Nodup) (who : ℕ) :
    positionAboveOf l₁ who = positionAboveOf l₂ who := by
  by_cases hany : ∃ s, (who, s) ∈ l₁
  · obtain ⟨s, hm⟩ := hany
    rw [positionAboveOf_eq_countP l₁ hnn hns hm,
      positionAboveOf_eq_countP l₂ ((hperm.map Prod.fst).nodup_iff.mp hnn)
        ((hperm.map Prod.snd).nodup_iff.mp hns) (hperm.mem_iff.mp hm),
      hperm.countP_eq]
  · push_neg at hany
    have h1 : ∀ p ∈ l₁, p.1 ≠ who := by
      intro p hp he
      have hpe : (who, p.2) = p := by rw [← he]
      exact hany p.2 (hpe ▸ hp)
    have h2 : ∀ p ∈ l₂, p.1 ≠ who := fun p hp => h1 p (hperm.mem_iff.mpr hp)
    rw [positionAboveOf_eq_none l₁ who h1, positionAboveOf_eq_none l₂ who h2]

lemma fixer_entries_eq_main (d : SeasonData) (w : ℕ) :
    fixerWeekEntries (mainRecords d) w = mainWeekEntries d w := by
  unfold fixerWeekEntries mainRecords mainWeekEntries aliveInWeek
  rw [List.filterMap_map, List.filterMap_filter]
  congr 1
  funext r
  simp only [Function.comp_apply, managerRecOf, fixerAlive, weekly_scores_dictOf]
  cases he : d.elim r with
  | none =>
    simp only [he]
    by_cases hw : w ≤ d.currentWeek
    · simp [hw]
    · have hns : allScores d w r = none := by
        unfold allScores
        rw [if_neg (by omega)]
      simp [hw, hns]
  | some c =>
    simp only [he]
    by_cases hc : w ≤ c
    · by_cases hw : w ≤ d.currentWeek
      · simp [hc, hw]
      · have hns : allScores d w r = none := by
          unfold allScores
          rw [if_neg (by omega)]
        simp [hc, hw, hns]
    · simp [hc]

lemma fixerWeekEntries_perm {d : SeasonData} {ms : List ManagerRec}
    (hp : ms.Perm (mainRecords d)) (w : ℕ) :
    (fixerWeekEntries ms w).Perm (mainWeekEntries d w) := by
  have h := hp.filterMap fun m =>
    if fixerAlive m w then (m.weekly_scores w).map fun s => (m.user_name, s) else none
  exact (fixer_entries_eq_main d w) ▸ h

lemma filterMap_pair_fst_sublist (g : ℕ → Option ℚ) :
    ∀ l : List ℕ, ((l.filterMap fun r => (g r).map fun s => (r, s)).map
      Prod.fst).Sublist l := by
  intro l
  induction l with
  | nil => simp
  | cons a l ih =>
    rw [List.filterMap_cons]
    cases hg : g a with
    | none => exact ih.cons a
    | some s => simpa using ih.cons₂ a

lemma mainWeekEntries_fst_nodup (d : SeasonData) (hnd : d.rosterOrder.Nodup)
    (w : ℕ) : ((mainWeekEntries d w).map Prod.fst).Nodup := by
  apply List.Sublist.nodup ?_ hnd
  exact (filterMap_pair_fst_sublist _ _).trans (List.filter_sublist _)

lemma mainWeekEntries_of_gt (d : SeasonData) {w : ℕ} (hw : d.currentWeek < w) :
    mainWeekEntries d w = [] := by
  unfold mainWeekEntries
  apply List.filterMap_eq_nil_iff.mpr
  intro r _
  unfold allScores
  rw [if_neg (by omega)]
  rfl

lemma week_position_eq (d : SeasonData) {ms : List ManagerRec}
    (hperm : ms.Perm (mainRecords d)) (hnd : d.rosterOrder.Nodup)
    (hties : ∀ w, w ≤ d.currentWeek → ((mainWeekEntries d w).map Prod.snd).Nodup)
    (w rid : ℕ) :
    positionAboveOf (fixerWeekEntries ms w) rid
      = positionAboveOf (mainWeekEntries d w) rid := by
  by_cases hw : w ≤ d.currentWeek
  · exact positionAboveOf_perm (fixerWeekEntries_perm hperm w)
      (((fixerWeekEntries_perm hperm w).map Prod.fst).nodup_iff.mpr
        (mainWeekEntries_fst_nodup d hnd w))
      (((fixerWeekEntries_perm hperm w).map Prod.snd).nodup_iff.mpr (hties w hw)) rid
  · have hmain : mainWeekEntries d w = [] := mainWeekEntries_of_gt d (by omega)
    have hfix : fixerWeekEntries ms w = [] := by
      have h := fixerWeekEntries_perm hperm w
      rw [hmain] at h
      exact h.eq_nil
    rw [hmain, hfix]

lemma fixer_positions_eq (d : SeasonData) {ms : List ManagerRec}
    (hperm : ms.Perm (mainRecords d)) (hnd : d.rosterOrder.Nodup)
    (hcur : d.currentWeek ≤ 17)
    (hties : ∀ w, w ≤ d.currentWeek → ((mainWeekEntries d w).map Prod.snd).Nodup)
    (rid : ℕ) :
    fixerPositions ms (managerRecOf d rid) = positions_aboveOf d rid := by
  have hfun : (fun w => positionAboveOf (fixerWeekEntries ms w) rid)
      = fun w => positionAboveOf (mainWeekEntries d w) rid :=
    funext fun w => week_position_eq d hperm hnd hties w rid
  unfold fixerPositions positions_aboveOf
  have huser : (managerRecOf d rid).user_name = rid := rfl
  rw [huser, hfun]
  cases he : d.elim rid with
  | some c =>
    have h1 : fixerEndWeek (managerRecOf d rid) = c := by
      unfold fixerEndWeek managerRecOf
      rw [he]
      rfl
    have h2 : end_weekOf d rid = c := by
      unfold end_weekOf
      rw [he]
      rfl
    rw [h1, h2]
  | none =>
    have h1 : fixerEndWeek (managerRecOf d rid) = 17 := by
      unfold fixerEndWeek managerRecOf
      rw [he]
      rfl
    have h2 : end_weekOf d rid = d.currentWeek := by
      unfold end_weekOf
      rw [he]
      rfl
    rw [h1, h2]
    have hsplit : List.range' 1 d.currentWeek
        ++ List.range' (1 + d.currentWeek) (17 - d.currentWeek)
        = List.range' 1 17 := by
      rw [List.range'_append_1]
      congr 1
      omega
    rw [← hsplit, List.filterMap_append]
    have hnil : (List.range' (1 + d.currentWeek) (17 - d.currentWeek)).filterMap
        (fun w => positionAboveOf (mainWeekEntries d w) rid) = [] := by
      apply List.filterMap_eq_nil_iff.mpr
      intro w hw
      have hwgt : d.currentWeek < w := by
        rcases List.mem_range'_1.mp hw with ⟨hw1, hw2⟩
        omega
      rw [mainWeekEntries_of_gt d hwgt]
      simp [positionAboveOf]
    rw [hnil, List.append_nil]

/-- C9 (amended): the avg-position-above-chop of the main pipeline and the
recomputation of fix_avg_above_chop.py agree on every manager whenever no two
alive teams share a score in any played week; without that hypothesis the two
differ, because each ranks tied scores by its own iteration order (roster
order versus sorted managers-list order). -/
theorem fix_avg_above_chop_equiv (d : SeasonData) (ms : List ManagerRec)
    (hperm : ms.Perm (mainRecords d))
    (hnd : d.rosterOrder.Nodup)
    (hcur : d.currentWeek ≤ 17)
    (hties : ∀ w, w ≤ d.currentWeek → ((mainWeekEntries d w).map Prod.snd).Nodup) :
    ∀ m ∈ ms, calculate_rank_based_avg_above_chop ms m
      = avg_position_above_chopOf d m.user_name := by
  intro m hm
  have hmm : m ∈ mainRecords d := hperm.mem_iff.mp hm
  rcases List.mem_map.mp hmm with ⟨rid, _, hrec⟩
  subst hrec
  have hpos := fixer_positions_eq d hperm hnd hcur hties rid
  unfold calculate_rank_based_avg_above_chop avg_position_above_chopOf
  rw [hpos, show (managerRecOf d rid).user_name = rid from rfl]

/-- A complete tie-free 2-team season used to witness C9. -/
def d9w : SeasonData :=
  ⟨[1, 2],
   fun w r =>
     if w = 1 then (if r = 1 then some 30 else if r = 2 then some 20 else none)
     else none,
   1,
   fun r => if r = 2 then some 1 else none⟩

/-- The manager records of d9w in the reversed (eliminated-first) order the
script would see. -/
def ms9w : List ManagerRec := (mainRecords d9w).reverse

/-- Concrete witness for C9: on the tie-free season d9w, with the managers
list reversed relative to roster order, the script recomputation matches the
pipeline average for roster 1. -/
theorem fix_avg_above_chop_equiv_witness :
    ms9w.Perm (mainRecords d9w) ∧ d9w.rosterOrder.Nodup ∧ d9w.currentWeek ≤ 17 ∧
    (∀ w, w ≤ d9w.currentWeek → ((mainWeekEntries d9w w).map Prod.snd).Nodup) ∧
    calculate_rank_based_avg_above_chop ms9w (managerRecOf d9w 1)
      = avg_position_above_chopOf d9w 1 := by
  have hties : ∀ w, w ≤ d9w.currentWeek →
      ((mainWeekEntries d9w w).map Prod.snd).Nodup := by decide
  refine ⟨List.reverse_perm _, by decide, by decide, hties, ?_⟩
  exact fix_avg_above_chop_equiv d9w ms9w (List.reverse_perm _) (by decide)
    (by decide) hties (managerRecOf d9w 1)
    (List.mem_reverse.mpr (List.mem_map_of_mem _ (by decide)))

/-- A complete 3-team season with a week-1 score tie between rosters 1 and 2,
used to refute C9 as stated. -/
def d9 : SeasonData :=
  ⟨[1, 2, 3],
   fun w r =>
     if w = 1 then
       (if r = 1 then some 50 else if r = 2 then some 50
        else if r = 3 then some 40 else none)
     else if w = 2 then (if r = 1 then some 70 else if r = 2 then some 60 else none)
     else none,
   2,
   fun r => if r = 2 then some 2 else if r = 3 then some 1 else none⟩

/-- The manager records of d9 in the reversed (eliminated-first) order the
script would see. -/
def ms9 : List ManagerRec := (mainRecords d9).reverse

/-- C9 counterexample: on the complete season d9 (current week = final week,
same managers, chop weeks and weekly scores on both sides) the script
recomputes 1.0 for roster 1 while the pipeline computed 1.5: the week-1 tie
at 50 points is ranked by iteration order, which differs between the two
implementations. -/
theorem fix_avg_above_chop_equiv_counterexample :
    ms9.Perm (mainRecords d9) ∧
    managerRecOf d9 1 ∈ ms9 ∧
    calculate_rank_based_avg_above_chop ms9 (managerRecOf d9 1) = 1 ∧
    avg_position_above_chopOf d9 1 = 3 / 2 ∧
    calculate_rank_based_avg_above_chop ms9 (managerRecOf d9 1)
      ≠ avg_position_above_chopOf d9 1 := by
  have hfp : fixerPositions ms9 (managerRecOf d9 1) = [1, 1] := by decide
  have hmp : positions_aboveOf d9 1 = [2, 1] := by decide
  have hc1 : calculate_rank_based_avg_above_chop ms9 (managerRecOf d9 1) = 1 := by
    unfold calculate_rank_based_avg_above_chop
    rw [hfp, if_neg (by decide : ¬([1, 1] : List ℕ) = [])]
    norm_num [ratMean, round1, round_eq]
  have hc2 : avg_position_above_chopOf d9 1 = 3 / 2 := by
    unfold avg_position_above_chopOf
    rw [hmp, if_neg (by decide : ¬([2, 1] : List ℕ) = [])]
    norm_num [ratMean, round1, round_eq]
  refine ⟨List.reverse_perm _,
    List.mem_reverse.mpr (List.mem_map_of_mem _ (by decide)), hc1, hc2, ?_⟩
  rw [hc1, hc2]
  norm_num

/-! ### Claim C10: the per-manager weekly_scores dict (process_season_data,
step 8) -/

/-- Model of the weekly_scores dict as the ordered list of its key-value
pairs: the keys are the string forms of 1..17, modelled by the numbers. -/
def weekly_scores_listOf (d : SeasonData) (rid : ℕ) : List (ℕ × Option ℚ) :=
  (List.range' 1 17).map fun w => (w, weekly_scores_dictOf d rid w)

/-- C10 (confirmed): the weekly_scores dict has exactly the keys 1..17; for a
week within the current week and not beyond the chop week the value is the
recorded scorelookup of all_scores; the value is null for every week strictly
after the chop week and for every week after the current week, so eliminated
teams never expose post-elimination scores. -/
theorem process_season_data_weekly_scores_keys (d : SeasonData) (rid : ℕ) :
    ((weekly_scores_listOf d rid).map Prod.fst = List.range' 1 17) ∧
    (∀ w, w ≤ d.currentWeek →
      (d.elim rid = none ∨ ∃ c, d.elim rid = some c ∧ w ≤ c) →
      weekly_scores_dictOf d rid w = allScores d w rid) ∧
    (∀ w c, d.elim rid = some c → c < w → weekly_scores_dictOf d rid w = none) ∧
    (∀ w, d.currentWeek < w → weekly_scores_dictOf d rid w = none) := by
  refine ⟨?_, ?_, ?_, ?_⟩
  · rw [weekly_scores_listOf, List.map_map]
    have hid : (Prod.fst ∘ fun w => (w, weekly_scores_dictOf d rid w))
        = fun w : ℕ => w := rfl
    rw [hid, List.map_id']
  · intro w hw hc
    unfold weekly_scores_dictOf
    rw [if_pos hw]
    rcases hc with h | ⟨c, hc1, hc2⟩
    · rw [h]
    · rw [hc1]
      show (if w ≤ c then allScores d w rid else none) = allScores d w rid
      rw [if_pos hc2]
  · intro w c he hcw
    unfold weekly_scores_dictOf
    rw [he]
    by_cases hw : w ≤ d.currentWeek
    · rw [if_pos hw]
      show (if w ≤ c then allScores d w rid else none) = none
      rw [if_neg (by omega)]
    · rw [if_neg hw]
  · intro w hw
    unfold weekly_scores_dictOf
    rw [if_neg (by omega)]

/-- A 2-team season through week 3 with roster 2 chopped in week 2, used to
witness C10. -/
def d10 : SeasonData :=
  ⟨[1, 2],
   fun w r => if w ≤ 3 then some ((10 * w + r : ℕ) : ℚ) else none,
   3,
   fun r => if r = 2 then some 2 else none⟩

/-- Concrete witness for C10: for the eliminated roster 2 of d10, the keys
are 1..17, week 1 shows the recorded score, week 3 (after the week-2 chop) is
null, and week 18 (after the current week) is null. -/
theorem process_season_data_weekly_scores_keys_witness :
    (weekly_scores_listOf d10 2).map Prod.fst = List.range' 1 17 ∧
    weekly_scores_dictOf d10 2 1 = allScores d10 1 2 ∧
    weekly_scores_dictOf d10 2 3 = none ∧
    weekly_scores_dictOf d10 2 18 = none :=
  ⟨(process_season_data_weekly_scores_keys d10 2).1,
   (process_season_data_weekly_scores_keys d10 2).2.1 1 (by decide)
     (Or.inr ⟨2, rfl, by decide⟩),
   (process_season_data_weekly_scores_keys d10 2).2.2.1 3 2 rfl (by decide),
   (process_season_data_weekly_scores_keys d10 2).2.2.2 18 (by decide)⟩

end Guillotine
